import Mathlib

/-!
Verification of the loss terms in `boltz_binder_design/losses/esm.py` and
`boltz_binder_design/losses/fixed_positions.py`.

Tensors are shallowly embedded as lists of rationals (`List ℚ` for vectors,
`List (List ℚ)` for matrices); operations that can raise in the source
(dictionary lookups, mismatched matrix products, out-of-range writes) return
`Option`, with `none` standing for the raised exception.  The pretrained ESM2
model is an external collaborator and is kept abstract: an embedding weight
matrix together with opaque layer, normalization, logit-head and log-softmax
functions.
-/

/-- Modelled from the spec: `TOKENS`, the ordered design-system token list
(the 20 standard amino-acid symbols) imported from `..common`, whose source
file is not part of the verified sources. -/
def TOKENS : List String :=
  ["A", "R", "N", "D", "C", "Q", "E", "G", "H", "I",
   "L", "K", "M", "F", "P", "S", "T", "W", "Y", "V"]

/-- Modelled from the spec: `ESM_TOKENS`, the model-system symbol-to-index
lookup (the 33-entry ESM2 alphabet exposed by the external `esm2quinox`
package), with the amino-acid symbols at indices 4–28 and the mask symbol
`"m"` at index 32. -/
def ESM_TOKENS : List (String × ℕ) :=
  [("cls", 0), ("pad", 1), ("eos", 2), ("unk", 3),
   ("L", 4), ("A", 5), ("G", 6), ("V", 7), ("S", 8), ("E", 9),
   ("R", 10), ("T", 11), ("I", 12), ("D", 13), ("P", 14), ("K", 15),
   ("Q", 16), ("N", 17), ("F", 18), ("Y", 19), ("M", 20), ("H", 21),
   ("W", 22), ("C", 23), ("X", 24), ("B", 25), ("U", 26), ("Z", 27),
   ("O", 28), (".", 29), ("-", 30), ("null", 31), ("m", 32)]

/-- Dictionary lookup `ESM_TOKENS[tok]`; `none` models a raised `KeyError`. -/
def esmLookup (tok : String) : Option ℕ :=
  (ESM_TOKENS.find? (fun p => p.1 == tok)).map Prod.snd

/-- `jax.nn.one_hot(i, n)`: a length-`n` vector with a 1 in component `i`
(all zeros when `i` is out of range, matching `jax.nn.one_hot`). -/
def oneHot (n i : ℕ) : List ℚ :=
  (List.range n).map (fun j => if j = i then 1 else 0)

/-- Number of columns of a matrix (length of its first row). -/
def matWidth (B : List (List ℚ)) : ℕ := (B.headD []).length

/-- Row-vector–matrix product: component `j` is `∑ k, v k * B k j`. -/
def vecMat (v : List ℚ) (B : List (List ℚ)) : List ℚ :=
  (List.range (matWidth B)).map
    (fun j => ((v.zip B).map (fun p => p.1 * p.2.getD j 0)).sum)

/-- Matrix product `A @ B`; `none` models the shape error `jnp` raises when
the contracting dimensions disagree (jnp does not broadcast them). -/
def matMul (A B : List (List ℚ)) : Option (List (List ℚ)) :=
  if A.all (fun r => r.length = B.length) then
    some (A.map (fun r => vecMat r B))
  else none

/-- `boltz_to_esm_matrix`, lines 12–18 of `esm.py`, generalized over the two
vocabularies: row `i` of the result is the one-hot row selecting the model
index of design symbol `i`.  A failed lookup (`KeyError`) or an out-of-range
model index (`IndexError` on the `numpy` write) is `none`. -/
def buildMatrix (tokens : List String) (lookup : String → Option ℕ) (width : ℕ) :
    Option (List (List ℚ)) :=
  tokens.mapM (fun tok =>
    (lookup tok).bind (fun j => if j < width then some (oneHot width j) else none))

/-- `boltz_to_esm_matrix()` at the repository's concrete vocabularies. -/
def boltz_to_esm_matrix : Option (List (List ℚ)) :=
  buildMatrix TOKENS esmLookup ESM_TOKENS.length

/-- The pretrained ESM2 model (external collaborator boundary, §4.3 of the
spec): an embedding weight matrix plus opaque per-layer transforms, a final
per-row normalization and a per-row logit head. -/
structure ESM2 where
  embeddingWeight : List (List ℚ)
  layers : List (List (List ℚ) → List ℚ → List (List ℚ))
  layerNorm : List ℚ → List ℚ
  logitHead : List ℚ → List ℚ

/-- `_apply_trunk`, lines 25–35 of `esm.py`: fold the layer stack over the
embedding (the `jax.lax.scan`) and then apply the normalization to every row
(the `jax.vmap(self.esm.layer_norm)`). -/
def applyTrunk (m : ESM2) (x : List (List ℚ)) (isPad : List ℚ) : List (List ℚ) :=
  (m.layers.foldl (fun acc layer => layer acc isPad) x).map m.layerNorm

/-- `jax.nn.one_hot(ESM_TOKENS["m"], 33)`, the row substituted at the masked
position (line 54 of `esm.py`). -/
def maskRow : List ℚ := oneHot 33 ((esmLookup "m").getD 0)

/-- Lines 42–48 of `esm.py`: bracket the projected sequence with the fixed
one-hot cls (index 0) and eos (index 2) marker rows. -/
def bracketSeq (up : List (List ℚ)) : List (List ℚ) :=
  oneHot 33 0 :: (up ++ [oneHot 33 2])

/-- `mask_ratio_train = 0.15 * 0.8` (line 60 of `esm.py`). -/
def mask_ratio_train : ℚ := 0.15 * 0.8

/-- The constant factor `(1 - mask_ratio_train) / (1 - 1/(n+2))` applied to
the whole embedding tensor (line 61 of `esm.py`). -/
def rescaleFactor (n : ℕ) : ℚ :=
  (1 - mask_ratio_train) / (1 - 1 / ((n : ℚ) + 2))

/-- Elementwise scaling `A * c` of a matrix by a scalar. -/
def matScale (c : ℚ) (A : List (List ℚ)) : List (List ℚ) :=
  A.map (fun r => r.map (fun x => x * c))

/-- Lines 53–58 of `esm.py`: substitute the mask one-hot at `index`, multiply
by the embedding weight, and zero the embedding row at `index`. -/
def maskedZeroed (m : ESM2) (esm_toks : List (List ℚ)) (index : ℕ) :
    Option (List (List ℚ)) :=
  (matMul (esm_toks.set index maskRow) m.embeddingWeight).map (fun e0 =>
    e0.set index ((e0.getD index []).map (fun _ => (0 : ℚ))))

/-- `single_ll`, lines 52–64 of `esm.py`: the masked-and-zeroed embedding is
rescaled by `rescaleFactor n`, run through the trunk with no padding
(`np.zeros(n + 2)`), and the per-row log-softmax of the logit head (kept
abstract as `lsm ∘ logitHead`) is read off at the masked `index`. -/
def single_ll (m : ESM2) (lsm : List ℚ → List ℚ) (n : ℕ)
    (esm_toks : List (List ℚ)) (index : ℕ) : Option (List ℚ) :=
  (maskedZeroed m esm_toks index).map (fun e1 =>
    ((applyTrunk m (matScale (rescaleFactor n) e1)
        (List.replicate (n + 2) (0 : ℚ))).map
      (fun r => lsm (m.logitHead r))).getD index [])

/-- `jnp.arange(start = 1, stop = n+1)` (line 66 of `esm.py`): the bracketed
indices whose positions get masked and scored. -/
def maskedIndices (n : ℕ) : List ℕ :=
  (List.range n).map (fun k => k + 1)

/-- `jax.lax.stop_gradient` is the identity on values; it only blocks
differentiation (its derivative semantics is modelled separately). -/
def stop_gradient {α : Type} (x : α) : α := x

/-- Dot product of two vectors (`(a * b).sum(-1)` on a pair of rows). -/
def dot (a b : List ℚ) : ℚ :=
  ((a.zip b).map (fun p => p.1 * p.2)).sum

/-- `ESM2PseudoLikelihood.__call__`, lines 37–70 of `esm.py`.  `lsm` is the
abstract `jax.nn.log_softmax` applied to one row of logits.  `none` models a
raised exception (failed vocabulary lookup or matrix-shape error). -/
def esmCall (m : ESM2) (lsm : List ℚ → List ℚ) (stopGrad : Bool)
    (seq : List (List ℚ)) : Option (ℚ × List (String × ℚ)) :=
  boltz_to_esm_matrix.bind (fun T =>
    (matMul seq T).bind (fun up =>
      ((maskedIndices seq.length).mapM
          (single_ll m lsm seq.length (bracketSeq up))).map (fun mlls0 =>
        let mlls := if stopGrad then stop_gradient mlls0 else mlls0
        let pll := (((mlls.zip up).map (fun p => dot p.1 p.2)).sum) /
          (seq.length : ℚ)
        (-pll, [("esm_pll", pll)]))))

/-- `SetPositions.sequence`, lines 29–34 of `fixed_positions.py`:
`jax.nn.one_hot(wildtype, len(TOKENS)).at[variable_positions].set(seq)`.
The scatter writes the rows of `seq` at the listed positions in order (a
later duplicate index overwrites an earlier one, matching XLA scatter), and
an out-of-range index drops its update. -/
def setPositionsSequence (wildtype variable_positions : List ℕ)
    (seq : List (List ℚ)) : List (List ℚ) :=
  (variable_positions.zip seq).foldl (fun acc p => acc.set p.1 p.2)
    (wildtype.map (fun t => oneHot TOKENS.length t))

/-- Row-wise squared Euclidean distance `((s - t) ** 2).sum(-1)`. -/
def sqDist (s t : List ℚ) : ℚ :=
  ((s.zip t).map (fun q => (q.1 - q.2) ^ 2)).sum

/-- `FixedPositionsPenalty.__call__`, lines 52–54 of `fixed_positions.py`:
`r = (((seq - target) ** 2).sum(-1) * position_mask).sum()` (a boolean mask
entry multiplies a float as 1 or 0), returned with the metrics mapping
`{"fixed_position_penalty": r}`. -/
def fixedPositionsPenalty (position_mask : List Bool)
    (target seq : List (List ℚ)) : ℚ × List (String × ℚ) :=
  let r := ((((seq.zip target).map (fun p => sqDist p.1 p.2)).zip
      position_mask).map (fun s => if s.2 then s.1 else 0)).sum
  (r, [("fixed_position_penalty", r)])

/-- Forward-mode derivative semantics for the aggregation step of
`__call__`: a scalar paired with its derivative along one parameter of the
pretrained trunk. -/
structure Dual where
  val : ℚ
  dv : ℚ
deriving DecidableEq

/-- Dual-number addition. -/
def Dual.add (x y : Dual) : Dual := ⟨x.val + y.val, x.dv + y.dv⟩

/-- Dual-number multiplication (product rule). -/
def Dual.mul (x y : Dual) : Dual := ⟨x.val * y.val, x.val * y.dv + x.dv * y.val⟩

/-- Dual-number negation. -/
def Dual.neg (x : Dual) : Dual := ⟨-x.val, -x.dv⟩

/-- Division of a dual number by the constant integer `n` (the `.mean()`). -/
def Dual.divNat (x : Dual) (n : ℕ) : Dual := ⟨x.val / n, x.dv / n⟩

/-- Sum of a list of dual numbers. -/
def dualSum (l : List Dual) : Dual := l.foldr Dual.add ⟨0, 0⟩

/-- Dot product of two rows of dual numbers. -/
def dotD (a b : List Dual) : Dual :=
  dualSum ((a.zip b).map (fun p => p.1.mul p.2))

/-- `jax.lax.stop_gradient` on a dual number: same value, zero derivative. -/
def stopGradD (x : Dual) : Dual := ⟨x.val, 0⟩

/-- Lines 66–70 of `esm.py` under forward-mode derivative semantics: from
the stacked masked log-likelihood rows `mlls` and the projected soft tokens
`up`, apply `stop_gradient` when the flag is set, then compute
`pll = (mlls * up).sum(-1).mean()` and return `(-pll, pll)` (the loss and
the `"esm_pll"` metric). -/
def aggregatePLL (stopGrad : Bool) (mlls up : List (List Dual)) (n : ℕ) :
    Dual × Dual :=
  let m2 := if stopGrad then mlls.map (fun r => r.map stopGradD) else mlls
  let pll := (dualSum ((m2.zip up).map (fun p => dotD p.1 p.2))).divNat n
  (pll.neg, pll)

/-- A minimal concrete ESM2 instance (identity trunk, zero-width embedding)
used to instantiate the theorems at concrete inputs. -/
def trivialModel : ESM2 where
  embeddingWeight := List.replicate 33 ([] : List ℚ)
  layers := []
  layerNorm := fun r => r
  logitHead := fun r => r

/-- Hot-component index of a row: the first `j` with `v[j] = 1` (the inverse
of a one-hot encoding; formalizes the claim's "inverse lookup"). -/
def hotIndex (v : List ℚ) : Option ℕ :=
  (List.range v.length).find? (fun j => v.getD j 0 == 1)

/-- Inverse vocabulary lookup: the design token whose model index is `j`. -/
def designTokenOfEsmIndex (j : ℕ) : Option ℕ :=
  (List.range TOKENS.length).find? (fun i => esmLookup (TOKENS.getD i "") == some j)

/-- Recover the design token encoded by a projected model-space row. -/
def recoverRow (v : List ℚ) : Option ℕ :=
  (hotIndex v).bind designTokenOfEsmIndex

/-- Project a list of discrete design tokens (as one-hot rows) through the
mapping matrix. -/
def projectTokens (toks : List ℕ) : Option (List (List ℚ)) :=
  boltz_to_esm_matrix.bind (fun T =>
    matMul (toks.map (fun t => oneHot TOKENS.length t)) T)

lemma oneHot_length (n i : ℕ) : (oneHot n i).length = n := by
  simp [oneHot]

lemma vecMat_length (v : List ℚ) (B : List (List ℚ)) :
    (vecMat v B).length = matWidth B := by
  simp [vecMat]

lemma matrix_some : boltz_to_esm_matrix = some (boltz_to_esm_matrix.getD []) := by
  decide

lemma matrix_length : (boltz_to_esm_matrix.getD []).length = TOKENS.length := by
  decide

lemma matrix_width : matWidth (boltz_to_esm_matrix.getD []) = 33 := by
  decide

lemma maskRow_length : maskRow.length = 33 := by
  simp [maskRow, oneHot_length]

lemma option_eq_some_getD {α : Type} (o : Option α) (d : α) (h : o.isSome) :
    o = some (o.getD d) := by
  cases o with
  | none => cases h
  | some a => rfl

lemma mapM_option_eq_map {α β : Type} (f : α → Option β) (d : β) :
    ∀ l : List α, (∀ a ∈ l, (f a).isSome) →
      l.mapM f = some (l.map (fun a => (f a).getD d))
  | [], _ => rfl
  | a :: l, h => by
    have ha : f a = some ((f a).getD d) :=
      option_eq_some_getD _ d (h a (by simp))
    have hl := mapM_option_eq_map f d l (fun x hx => h x (by simp [hx]))
    rw [List.mapM_cons, ha, hl]
    rfl

lemma matMul_eq (A B : List (List ℚ)) (h : ∀ r ∈ A, r.length = B.length) :
    matMul A B = some (A.map (fun r => vecMat r B)) := by
  have hall : A.all (fun r => r.length = B.length) = true :=
    List.all_eq_true.mpr (fun r hr => by simp [h r hr])
  simp [matMul, hall]

lemma matMul_none (A B : List (List ℚ)) (r : List ℚ) (hr : r ∈ A)
    (h : r.length ≠ B.length) : matMul A B = none := by
  have hall : ¬ (A.all (fun r => r.length = B.length) = true) := by
    intro hc
    exact h (by simpa using List.all_eq_true.mp hc r hr)
  simp [matMul, hall]

lemma bracketSeq_length (up : List (List ℚ)) :
    (bracketSeq up).length = up.length + 2 := by
  simp [bracketSeq]

lemma bracketSeq_rows (up : List (List ℚ)) (h : ∀ r ∈ up, r.length = 33) :
    ∀ r ∈ bracketSeq up, r.length = 33 := by
  intro r hr
  simp only [bracketSeq, List.mem_cons, List.mem_append] at hr
  rcases hr with h0 | h1 | h2
  · rw [h0]; exact oneHot_length 33 0
  · exact h r h1
  · rcases h2 with h2 | h2
    · rw [h2]; exact oneHot_length 33 2
    · cases h2

lemma maskedZeroed_isSome (m : ESM2) (toks : List (List ℚ)) (i : ℕ)
    (htoks : ∀ r ∈ toks, r.length = m.embeddingWeight.length)
    (hmask : maskRow.length = m.embeddingWeight.length) :
    (maskedZeroed m toks i).isSome := by
  rw [maskedZeroed, matMul_eq]
  · rfl
  · intro r hr
    rcases List.mem_or_eq_of_mem_set hr with hmem | heq
    · exact htoks r hmem
    · rw [heq]; exact hmask

lemma single_ll_isSome (m : ESM2) (lsm : List ℚ → List ℚ) (n : ℕ)
    (toks : List (List ℚ)) (i : ℕ)
    (htoks : ∀ r ∈ toks, r.length = m.embeddingWeight.length)
    (hmask : maskRow.length = m.embeddingWeight.length) :
    (single_ll m lsm n toks i).isSome := by
  have hmz := maskedZeroed_isSome m toks i htoks hmask
  rw [single_ll]
  cases hcase : maskedZeroed m toks i with
  | none => rw [hcase] at hmz; cases hmz
  | some e => rfl

lemma esmCall_spec (m : ESM2) (lsm : List ℚ → List ℚ) (sg : Bool)
    (seq : List (List ℚ)) (h20 : ∀ r ∈ seq, r.length = TOKENS.length)
    (hemb : m.embeddingWeight.length = 33) :
    ∃ up : List (List ℚ),
      matMul seq (boltz_to_esm_matrix.getD []) = some up ∧
      up.length = seq.length ∧ (∀ r ∈ up, r.length = 33) ∧
      (maskedIndices seq.length).mapM
          (single_ll m lsm seq.length (bracketSeq up)) =
        some ((maskedIndices seq.length).map (fun i =>
          (single_ll m lsm seq.length (bracketSeq up) i).getD [])) ∧
      esmCall m lsm sg seq = some
        (-(((((maskedIndices seq.length).map (fun i =>
              (single_ll m lsm seq.length (bracketSeq up) i).getD [])).zip
              up).map (fun p => dot p.1 p.2)).sum / (seq.length : ℚ)),
         [("esm_pll",
           ((((maskedIndices seq.length).map (fun i =>
              (single_ll m lsm seq.length (bracketSeq up) i).getD [])).zip
              up).map (fun p => dot p.1 p.2)).sum / (seq.length : ℚ))]) := by
  have hup : matMul seq (boltz_to_esm_matrix.getD []) =
      some (seq.map (fun r => vecMat r (boltz_to_esm_matrix.getD []))) :=
    matMul_eq _ _ (fun r hr => by rw [h20 r hr, ← matrix_length])
  have hrows : ∀ r ∈ seq.map (fun r => vecMat r (boltz_to_esm_matrix.getD [])),
      r.length = 33 := by
    intro r hr
    obtain ⟨r0, _, hr0⟩ := List.mem_map.mp hr
    rw [← hr0, vecMat_length, matrix_width]
  have hbrows : ∀ r ∈ bracketSeq (seq.map (fun r =>
      vecMat r (boltz_to_esm_matrix.getD []))), r.length = m.embeddingWeight.length := by
    intro r hr
    rw [hemb]
    exact bracketSeq_rows _ hrows r hr
  have hmm : (maskedIndices seq.length).mapM
      (single_ll m lsm seq.length (bracketSeq (seq.map (fun r =>
        vecMat r (boltz_to_esm_matrix.getD []))))) =
      some ((maskedIndices seq.length).map (fun i =>
        (single_ll m lsm seq.length (bracketSeq (seq.map (fun r =>
          vecMat r (boltz_to_esm_matrix.getD [])))) i).getD [])) :=
    mapM_option_eq_map _ [] _ (fun i _ =>
      single_ll_isSome m lsm seq.length _ i hbrows
        (maskRow_length.trans hemb.symm))
  refine ⟨seq.map (fun r => vecMat r (boltz_to_esm_matrix.getD [])),
    hup, by simp, hrows, hmm, ?_⟩
  rw [esmCall, matrix_some, Option.some_bind, hup, Option.some_bind, hmm]
  simp [stop_gradient]

/-- Claim C1: for every soft sequence of length N, `ESM2PseudoLikelihood.__call__`
returns as first component the scalar `-(1/N) * Σ_{i<N} Σ_v lsm(i)[v] * up[i][v]`
(log-softmax row of the masked pass at interior position `i`, paired with the
projected soft token row at the same offset), and as second component a
metrics mapping whose `"esm_pll"` entry is exactly the negation of that loss. -/
theorem claim_C1 (m : ESM2) (lsm : List ℚ → List ℚ) (sg : Bool)
    (seq : List (List ℚ)) (hn : 0 < seq.length)
    (h20 : ∀ r ∈ seq, r.length = TOKENS.length)
    (hemb : m.embeddingWeight.length = 33) :
    ∃ up mlls : List (List ℚ),
      matMul seq (boltz_to_esm_matrix.getD []) = some up ∧
      mlls = (maskedIndices seq.length).map (fun i =>
        (single_ll m lsm seq.length (bracketSeq up) i).getD []) ∧
      esmCall m lsm sg seq = some
        (-(((mlls.zip up).map (fun p => dot p.1 p.2)).sum / (seq.length : ℚ)),
         [("esm_pll",
           ((mlls.zip up).map (fun p => dot p.1 p.2)).sum / (seq.length : ℚ))]) := by
  obtain ⟨up, hup, _, _, _, hcall⟩ := esmCall_spec m lsm sg seq h20 hemb
  exact ⟨up, _, hup, rfl, hcall⟩

/-- Instantiation of `claim_C1` at a concrete one-residue sequence and a
concrete trivial model. -/
theorem claim_C1_witness :
    ∃ up mlls : List (List ℚ),
      matMul [oneHot 20 0] (boltz_to_esm_matrix.getD []) = some up ∧
      mlls = (maskedIndices ([oneHot 20 0] : List (List ℚ)).length).map (fun i =>
        (single_ll trivialModel (fun r => r)
          ([oneHot 20 0] : List (List ℚ)).length (bracketSeq up) i).getD []) ∧
      esmCall trivialModel (fun r => r) true [oneHot 20 0] = some
        (-(((mlls.zip up).map (fun p => dot p.1 p.2)).sum /
            (([oneHot 20 0] : List (List ℚ)).length : ℚ)),
         [("esm_pll",
           ((mlls.zip up).map (fun p => dot p.1 p.2)).sum /
            (([oneHot 20 0] : List (List ℚ)).length : ℚ))]) :=
  claim_C1 trivialModel (fun r => r) true [oneHot 20 0]
    (by decide) (by decide) (by decide)

/-- Claim C2: for a sequence of length N ≥ 1 the scorer performs exactly N
masked passes, one per bracketed index in [1, N] of the length-(N+2)
bracketed sequence; the marker positions 0 and N+1 are never masked (their
rows survive every per-pass substitution) and never scored (they are not
among the scored indices); for N = 1 the bracketed sequence has length 3 and
exactly the single interior index 1 is masked. -/
theorem claim_C2 (n : ℕ) (hn : 1 ≤ n) :
    (maskedIndices n).length = n ∧
    (maskedIndices n).Nodup ∧
    (∀ i ∈ maskedIndices n, 1 ≤ i ∧ i ≤ n) ∧
    0 ∉ maskedIndices n ∧ (n + 1) ∉ maskedIndices n ∧
    (∀ up : List (List ℚ), up.length = n →
      (bracketSeq up).length = n + 2 ∧
      ∀ i ∈ maskedIndices n,
        ((bracketSeq up).set i maskRow).getD 0 [] = oneHot 33 0 ∧
        ((bracketSeq up).set i maskRow).getD (n + 1) [] = oneHot 33 2) ∧
    (∀ (m : ESM2) (lsm : List ℚ → List ℚ) (up : List (List ℚ)),
      (∀ r ∈ up, r.length = 33) → m.embeddingWeight.length = 33 →
      ∃ mlls : List (List ℚ),
        (maskedIndices n).mapM (single_ll m lsm n (bracketSeq up)) = some mlls ∧
        mlls.length = n) ∧
    (maskedIndices 1 = [1] ∧
      ∀ up : List (List ℚ), up.length = 1 → (bracketSeq up).length = 3) := by
  refine ⟨by simp [maskedIndices], ?_, ?_, ?_, ?_, ?_, ?_, rfl, ?_⟩
  · exact List.Nodup.map (fun a b => by omega) (List.nodup_range n)
  · intro i hi
    simp only [maskedIndices, List.mem_map, List.mem_range] at hi
    obtain ⟨k, hk, rfl⟩ := hi
    omega
  · simp [maskedIndices]
  · simp only [maskedIndices, List.mem_map, List.mem_range]
    rintro ⟨k, hk, hke⟩
    omega
  · intro up hup
    refine ⟨by rw [bracketSeq_length, hup], ?_⟩
    intro i hi
    have hi12 : 1 ≤ i ∧ i ≤ n := by
      simp only [maskedIndices, List.mem_map, List.mem_range] at hi
      obtain ⟨k, hk, rfl⟩ := hi
      omega
    obtain ⟨hi1, hi2⟩ := hi12
    constructor
    · rw [List.getD_eq_getElem?_getD, List.getElem?_set_ne (by omega)]
      simp [bracketSeq]
    · rw [List.getD_eq_getElem?_getD, List.getElem?_set_ne (by omega)]
      simp only [bracketSeq, List.getElem?_cons_succ]
      rw [List.getElem?_append_right (by omega)]
      simp [hup]
  · intro m lsm up hrows hemb
    refine ⟨(maskedIndices n).map (fun i =>
      (single_ll m lsm n (bracketSeq up) i).getD []), ?_, by simp [maskedIndices]⟩
    exact mapM_option_eq_map _ [] _ (fun i _ =>
      single_ll_isSome m lsm n _ i
        (fun r hr => by rw [hemb]; exact bracketSeq_rows up hrows r hr)
        (maskRow_length.trans hemb.symm))
  · intro up hup
    rw [bracketSeq_length, hup]

/-- Instantiation of `claim_C2` at N = 5. -/
theorem claim_C2_witness : (maskedIndices 5).length = 5 :=
  (claim_C2 5 (by norm_num)).1

lemma range_map_getD {α : Type} (d : α) :
    ∀ l : List α, (List.range l.length).map (fun j => l.getD j d) = l
  | [] => rfl
  | a :: l => by
    have h1 : (List.range l.length).map
        ((fun j => (a :: l).getD j d) ∘ Nat.succ) =
        (List.range l.length).map (fun j => l.getD j d) := by
      apply List.map_congr_left
      intro k _
      simp [Function.comp]
    rw [List.length_cons, List.range_succ_eq_map, List.map_cons, List.map_map, h1,
      range_map_getD d l]
    rfl

lemma oneHot_zip_sum (j : ℕ) :
    ∀ (B : List (List ℚ)) (t : ℕ), t < B.length →
      (((oneHot B.length t).zip B).map (fun p => p.1 * p.2.getD j 0)).sum =
        (B.getD t []).getD j 0
  | [], t, ht => absurd ht (by simp)
  | r :: B, t, ht => by
    rw [List.length_cons, oneHot, List.range_succ_eq_map, List.map_cons,
      List.map_map, List.zip_cons_cons, List.map_cons, List.sum_cons]
    cases t with
    | zero =>
      have hz : ((((List.range B.length).map
          ((fun j => if j = 0 then (1 : ℚ) else 0) ∘ Nat.succ)).zip B).map
          (fun p => p.1 * p.2.getD j 0)).sum = 0 := by
        apply List.sum_eq_zero
        intro x hx
        obtain ⟨p, hp, hpx⟩ := List.mem_map.mp hx
        have h1 : p.1 ∈ (List.range B.length).map
            ((fun j => if j = 0 then (1 : ℚ) else 0) ∘ Nat.succ) :=
          (List.of_mem_zip hp).1
        obtain ⟨k, _, hk⟩ := List.mem_map.mp h1
        rw [← hpx, ← hk]
        simp [Function.comp]
      rw [hz, add_zero, List.getD_cons_zero]
      simp
    | succ s =>
      have hs : s < B.length := by
        rw [List.length_cons] at ht
        omega
      simp only [Nat.succ_eq_add_one, List.getD_cons_succ]
      have hind : (List.range B.length).map
          ((fun j => if j = s + 1 then (1 : ℚ) else 0) ∘ Nat.succ) =
          oneHot B.length s := by
        rw [oneHot]
        apply List.map_congr_left
        intro k _
        simp [Function.comp, Nat.succ_eq_add_one]
      rw [hind]
      have hhead : (if (0 : ℕ) = s + 1 then (1 : ℚ) else 0) * r.getD j 0 = 0 := by
        simp
      rw [hhead, zero_add]
      exact oneHot_zip_sum j B s hs

lemma vecMat_oneHot (B : List (List ℚ)) (t : ℕ) (ht : t < B.length) :
    vecMat (oneHot B.length t) B =
      (List.range (matWidth B)).map (fun j => (B.getD t []).getD j 0) := by
  rw [vecMat]
  exact List.map_congr_left (fun j _ => oneHot_zip_sum j B t ht)

lemma mapM_option_none {α β : Type} (f : α → Option β) :
    ∀ (l : List α) (a : α), a ∈ l → f a = none → l.mapM f = none
  | b :: l, a, h, ha => by
    rw [List.mapM_cons]
    rcases List.mem_cons.mp h with rfl | hmem
    · rw [ha]; rfl
    · have hl := mapM_option_none f l a hmem ha
      simp only [hl]
      cases hfb : f b <;> rfl

lemma matrix_rows : ∀ t < TOKENS.length,
    ((boltz_to_esm_matrix.getD []).getD t []).length = 33 := by
  decide

lemma rowRecover : ∀ t < TOKENS.length,
    recoverRow ((boltz_to_esm_matrix.getD []).getD t []) = some t := by
  decide

/-- Claim C3: the mapping matrix returned by `boltz_to_esm_matrix` has shape
(design-vocab-size × model-vocab-size); row `i` carries exactly one 1, located
at the column obtained by looking up the i-th design symbol in the model
vocabulary, and 0 everywhere else. -/
theorem claim_C3 :
    ∃ M : List (List ℚ), boltz_to_esm_matrix = some M ∧
      M.length = TOKENS.length ∧
      ∀ i < TOKENS.length,
        (M.getD i []).length = ESM_TOKENS.length ∧
        (M.getD i []).count 1 = 1 ∧
        ∀ j < ESM_TOKENS.length,
          (M.getD i []).getD j 0 =
            (if esmLookup (TOKENS.getD i "") = some j then 1 else 0) := by
  refine ⟨boltz_to_esm_matrix.getD [], matrix_some, matrix_length, ?_⟩
  decide

/-- Instantiation of `claim_C3`: row 0 (symbol "A") is hot exactly at model
index 5. -/
theorem claim_C3_witness :
    ∃ M : List (List ℚ), boltz_to_esm_matrix = some M ∧
      (M.getD 0 []).getD 5 0 = 1 ∧ (M.getD 0 []).getD 4 0 = 0 := by
  obtain ⟨M, hM, _, h⟩ := claim_C3
  refine ⟨M, hM, ?_, ?_⟩
  · rw [(h 0 (by decide)).2.2 5 (by decide)]
    decide
  · rw [(h 0 (by decide)).2.2 4 (by decide)]
    decide

/-- Claim C6: if some design-vocabulary symbol has no counterpart in the
model vocabulary, the matrix construction fails at construction time (the
undefined lookup propagates as `none`); it never returns a matrix with a
silently zero-filled row for that symbol. -/
theorem claim_C6 (tokens : List String) (lookup : String → Option ℕ)
    (width : ℕ) (tok : String) (htok : tok ∈ tokens)
    (hmiss : lookup tok = none) :
    buildMatrix tokens lookup width = none := by
  rw [buildMatrix]
  exact mapM_option_none _ tokens tok htok (by rw [hmiss]; rfl)

/-- Instantiation of `claim_C6`: a design vocabulary containing the symbol
"J" (absent from the ESM alphabet) makes the construction fail. -/
theorem claim_C6_witness :
    buildMatrix ["A", "J"] esmLookup ESM_TOKENS.length = none :=
  claim_C6 ["A", "J"] esmLookup ESM_TOKENS.length "J" (by decide) (by decide)

/-- Claim C8: the induced map from design token indices to model token
indices is injective, and for every sequence of one-hot design rows,
projecting through the mapping matrix and recovering each row by inverse
lookup reproduces the original discrete tokens exactly. -/
theorem claim_C8 :
    (∀ i < TOKENS.length, ∀ j < TOKENS.length,
      esmLookup (TOKENS.getD i "") = esmLookup (TOKENS.getD j "") → i = j) ∧
    (∀ toks : List ℕ, (∀ t ∈ toks, t < TOKENS.length) →
      ∃ P, projectTokens toks = some P ∧ P.map recoverRow = toks.map some) := by
  constructor
  · decide
  · intro toks h
    have hmm : matMul (toks.map (fun t => oneHot TOKENS.length t))
        (boltz_to_esm_matrix.getD []) =
        some ((toks.map (fun t => oneHot TOKENS.length t)).map
          (fun r => vecMat r (boltz_to_esm_matrix.getD []))) := by
      apply matMul_eq
      intro r hr
      obtain ⟨t, _, hrt⟩ := List.mem_map.mp hr
      rw [← hrt, oneHot_length, matrix_length]
    refine ⟨_, by rw [projectTokens, matrix_some, Option.some_bind, hmm], ?_⟩
    rw [List.map_map, List.map_map]
    apply List.map_congr_left
    intro t htk
    have ht : t < TOKENS.length := h t htk
    have hlt : t < (boltz_to_esm_matrix.getD []).length := by
      rw [matrix_length]; exact ht
    have h1 : oneHot TOKENS.length t =
        oneHot (boltz_to_esm_matrix.getD []).length t := by
      rw [matrix_length]
    simp only [Function.comp_apply]
    rw [h1, vecMat_oneHot _ t hlt, matrix_width,
      show (33 : ℕ) = ((boltz_to_esm_matrix.getD []).getD t []).length from
        (matrix_rows t ht).symm,
      range_map_getD]
    exact rowRecover t ht

/-- Instantiation of `claim_C8` at the token sequence [0, 5]. -/
theorem claim_C8_witness :
    ∃ P, projectTokens [0, 5] = some P ∧
      P.map recoverRow = ([0, 5] : List ℕ).map some :=
  claim_C8.2 [0, 5] (by decide)

lemma rescaleFactor_eq (n : ℕ) :
    rescaleFactor n = (1 - mask_ratio_train) * (1 + 1 / ((n : ℚ) + 1)) := by
  have h1 : ((n : ℚ) + 1) ≠ 0 := by positivity
  have h2 : ((n : ℚ) + 2) ≠ 0 := by positivity
  have e1 : (1 : ℚ) - 1 / ((n : ℚ) + 2) = ((n : ℚ) + 1) / ((n : ℚ) + 2) := by
    rw [eq_div_iff h2, sub_mul, one_mul, div_mul_cancel₀ _ h2]
    ring
  have e2 : (1 : ℚ) + 1 / ((n : ℚ) + 1) = ((n : ℚ) + 2) / ((n : ℚ) + 1) := by
    rw [eq_div_iff h1, add_mul, one_mul, div_mul_cancel₀ _ h1]
    ring
  rw [rescaleFactor, e1, e2, div_div_eq_mul_div, mul_div_assoc]

/-- Claim C4: in every per-position masked pass the entire embedding tensor
is multiplied by the constant `rescaleFactor n = (1 - 0.15*0.8)/(1 - 1/(n+2))`
before entering the trunk; the factor is a function of `n` and the two
training-time constants only, and it tends to `1 - 0.15*0.8` as the sequence
length goes to infinity. -/
theorem claim_C4 :
    (∀ (m : ESM2) (lsm : List ℚ → List ℚ) (n : ℕ) (toks : List (List ℚ))
      (i : ℕ) (E : List (List ℚ)),
      maskedZeroed m toks i = some E →
      single_ll m lsm n toks i = some
        (((applyTrunk m (matScale (rescaleFactor n) E)
            (List.replicate (n + 2) (0 : ℚ))).map
          (fun r => lsm (m.logitHead r))).getD i [])) ∧
    Filter.Tendsto (fun n : ℕ => ((rescaleFactor n : ℚ) : ℝ)) Filter.atTop
      (nhds ((1 : ℝ) - 0.15 * 0.8)) := by
  constructor
  · intro m lsm n toks i E hE
    rw [single_ll, hE]
    rfl
  · have key : (fun n : ℕ => ((rescaleFactor n : ℚ) : ℝ)) =
        (fun n : ℕ => ((1 : ℝ) - 0.15 * 0.8) * (1 + 1 / ((n : ℝ) + 1))) := by
      funext n
      rw [rescaleFactor_eq, mask_ratio_train]
      push_cast
      norm_num
    rw [key]
    have h1 : Filter.Tendsto (fun n : ℕ => (1 : ℝ) + 1 / ((n : ℝ) + 1))
        Filter.atTop (nhds (1 + 0)) :=
      Filter.Tendsto.add tendsto_const_nhds tendsto_one_div_add_atTop_nhds_zero_nat
    have h2 := h1.const_mul ((1 : ℝ) - 0.15 * 0.8)
    simpa using h2

/-- Instantiation of `claim_C4` at a concrete bracketed sequence and the
trivial model. -/
theorem claim_C4_witness :
    single_ll trivialModel (fun r => r) 1 (bracketSeq [oneHot 33 5]) 1 = some
      (((applyTrunk trivialModel (matScale (rescaleFactor 1) [[], [], []])
          (List.replicate (1 + 2) (0 : ℚ))).map
        (fun r => trivialModel.logitHead r)).getD 1 []) :=
  claim_C4.1 trivialModel (fun r => r) 1 (bracketSeq [oneHot 33 5]) 1
    [[], [], []] (by decide)

/-- Claim C5: a call whose soft sequence has a trailing (vocabulary)
dimension different from the design vocabulary size fails (the projection
`seq @ T` raises a shape error before any trunk compute; modelled as `none`),
rather than silently broadcasting to a result. -/
theorem claim_C5 (m : ESM2) (lsm : List ℚ → List ℚ) (sg : Bool)
    (seq : List (List ℚ)) (r : List ℚ) (hr : r ∈ seq)
    (hv : r.length ≠ TOKENS.length) :
    esmCall m lsm sg seq = none := by
  rw [esmCall, matrix_some, Option.some_bind,
    matMul_none seq _ r hr (by rw [matrix_length]; exact hv)]
  rfl

/-- Instantiation of `claim_C5`: a sequence with vocabulary dimension 1. -/
theorem claim_C5_witness :
    esmCall trivialModel (fun r => r) true [[(0 : ℚ)]] = none :=
  claim_C5 trivialModel (fun r => r) true [[(0 : ℚ)]] [(0 : ℚ)]
    (by decide) (by decide)

lemma dualSum_dv : ∀ l : List Dual, (dualSum l).dv = (l.map Dual.dv).sum
  | [] => rfl
  | x :: l => by
    show (x.add (dualSum l)).dv = _
    rw [List.map_cons, List.sum_cons, ← dualSum_dv l]
    rfl

/-- Claim C7: with the stop-gradient flag set, the derivative of the
returned scalar loss along any trunk parameter is exactly zero (the masked
log-likelihood tensor is the only part of the computation depending on trunk
parameters, and `stop_gradient` zeroes its tangent, while the projected soft
tokens are trunk-independent); with the flag unset the derivative is in
general non-zero. -/
theorem claim_C7 :
    (∀ (mlls up : List (List Dual)) (n : ℕ),
      (∀ r ∈ up, ∀ x ∈ r, x.dv = 0) →
      (aggregatePLL true mlls up n).1.dv = 0) ∧
    (∃ (mlls up : List (List Dual)) (n : ℕ),
      (∀ r ∈ up, ∀ x ∈ r, x.dv = 0) ∧
      (aggregatePLL false mlls up n).1.dv ≠ 0) := by
  constructor
  · intro mlls up n hup
    have hdv : ∀ p ∈ ((mlls.map (fun r => r.map stopGradD)).zip up),
        (dotD p.1 p.2).dv = 0 := by
      intro p hp
      obtain ⟨h1, h2⟩ := List.of_mem_zip hp
      rw [dotD, dualSum_dv]
      apply List.sum_eq_zero
      intro x hx
      obtain ⟨q, hq, hqx⟩ := List.mem_map.mp hx
      obtain ⟨w, hw, hwq⟩ := List.mem_map.mp hq
      obtain ⟨w1, w2⟩ := w
      obtain ⟨hw1, hw2⟩ := List.of_mem_zip hw
      obtain ⟨r0, _, hr0⟩ := List.mem_map.mp h1
      rw [← hr0] at hw1
      obtain ⟨y, _, hy⟩ := List.mem_map.mp hw1
      have h1dv : w1.dv = 0 := by rw [← hy]; rfl
      have h2dv : w2.dv = 0 := hup p.2 h2 w2 hw2
      rw [← hqx, ← hwq]
      show w1.val * w2.dv + w1.dv * w2.val = 0
      rw [h1dv, h2dv]
      ring
    have hsum : (dualSum (((mlls.map (fun r => r.map stopGradD)).zip up).map
        (fun p => dotD p.1 p.2))).dv = 0 := by
      rw [dualSum_dv]
      apply List.sum_eq_zero
      intro x hx
      obtain ⟨q, hq, hqx⟩ := List.mem_map.mp hx
      obtain ⟨p, hp, hpq⟩ := List.mem_map.mp hq
      rw [← hqx, ← hpq]
      exact hdv p hp
    have heq : (aggregatePLL true mlls up n).1.dv =
        -((dualSum (((mlls.map (fun r => r.map stopGradD)).zip up).map
          (fun p => dotD p.1 p.2))).dv / (n : ℚ)) := rfl
    rw [heq, hsum]
    simp
  · refine ⟨[[Dual.mk 0 1]], [[Dual.mk 1 0]], 1, ?_, ?_⟩
    · intro r hr x hx
      rw [List.mem_singleton.mp hr] at hx
      rw [List.mem_singleton.mp hx]
    · norm_num [aggregatePLL, dotD, dualSum, Dual.mul, Dual.add,
        Dual.divNat, Dual.neg]

/-- Instantiation of `claim_C7` at concrete dual-number inputs. -/
theorem claim_C7_witness :
    (aggregatePLL true [[Dual.mk 0 1]] [[Dual.mk 1 0]] 1).1.dv = 0 :=
  claim_C7.1 [[Dual.mk 0 1]] [[Dual.mk 1 0]] 1 (by
    intro r hr x hx
    rw [List.mem_singleton.mp hr] at hx
    rw [List.mem_singleton.mp hx])

lemma scatter_getD_not_mem :
    ∀ (l : List (ℕ × List ℚ)) (acc : List (List ℚ)) (i : ℕ),
      (∀ p ∈ l, p.1 ≠ i) →
      (l.foldl (fun a p => a.set p.1 p.2) acc).getD i [] = acc.getD i []
  | [], _, _, _ => rfl
  | p :: l, acc, i, h => by
    rw [List.foldl_cons,
      scatter_getD_not_mem l _ i (fun q hq => h q (List.mem_cons_of_mem p hq)),
      List.getD_eq_getElem?_getD,
      List.getElem?_set_ne (h p (List.mem_cons_self p l)),
      ← List.getD_eq_getElem?_getD]

lemma scatter_getD_nodup :
    ∀ (l : List (ℕ × List ℚ)) (acc : List (List ℚ)) (j : ℕ)
      (hj : j < l.length),
      (l.map Prod.fst).Nodup →
      (l.get ⟨j, hj⟩).1 < acc.length →
      (l.foldl (fun a p => a.set p.1 p.2) acc).getD (l.get ⟨j, hj⟩).1 [] =
        (l.get ⟨j, hj⟩).2
  | p :: l, acc, 0, hj, hnd, hlt => by
    have hne : ∀ q ∈ l, q.1 ≠ p.1 := by
      intro q hq he
      have hp1 : p.1 ∉ l.map Prod.fst :=
        (List.nodup_cons.mp (by simpa using hnd)).1
      exact hp1 (he ▸ List.mem_map_of_mem Prod.fst hq)
    rw [List.foldl_cons]
    have hget : ((p :: l).get ⟨0, hj⟩) = p := rfl
    rw [hget] at hlt ⊢
    rw [scatter_getD_not_mem l _ p.1 hne,
      List.getD_eq_getElem _ _ (by rw [List.length_set]; exact hlt),
      List.getElem_set_self]
  | p :: l, acc, j + 1, hj, hnd, hlt => by
    have hj2 : j < l.length := by simpa using hj
    have hnd2 : (l.map Prod.fst).Nodup :=
      (List.nodup_cons.mp (by simpa using hnd)).2
    have hget : ((p :: l).get ⟨j + 1, hj⟩) = l.get ⟨j, hj2⟩ := rfl
    rw [List.foldl_cons, hget]
    rw [hget] at hlt
    exact scatter_getD_nodup l _ j hj2 hnd2
      (by rw [List.length_set]; exact hlt)

/-- Claim C9: `SetPositions.sequence` leaves every position not listed in
`variable_positions` at the one-hot encoding of the wildtype token, and puts
the corresponding row of `seq` at each listed variable position (for distinct
in-range variable positions with one row of `seq` per variable position). -/
theorem claim_C9 (wildtype vp : List ℕ) (seq : List (List ℚ))
    (hlen : vp.length = seq.length) (hnd : vp.Nodup) :
    (∀ i < wildtype.length, i ∉ vp →
      (setPositionsSequence wildtype vp seq).getD i [] =
        oneHot TOKENS.length (wildtype.getD i 0)) ∧
    (∀ j (hj : j < vp.length), vp.get ⟨j, hj⟩ < wildtype.length →
      (setPositionsSequence wildtype vp seq).getD (vp.get ⟨j, hj⟩) [] =
        seq.getD j []) := by
  constructor
  · intro i hi hnotin
    rw [setPositionsSequence, scatter_getD_not_mem]
    · rw [List.getD_eq_getElem _ _ (by rw [List.length_map]; exact hi),
        List.getElem_map, List.getD_eq_getElem _ _ hi]
    · intro p hp he
      exact hnotin (he ▸ (List.of_mem_zip hp).1)
  · intro j hj hwt
    have hjz : j < (vp.zip seq).length := by
      rw [List.length_zip, hlen, min_self]
      rw [hlen] at hj
      exact hj
    have hpair : (vp.zip seq).get ⟨j, hjz⟩ = (vp.get ⟨j, hj⟩,
        seq.get ⟨j, by rw [← hlen]; exact hj⟩) := by
      simp [List.get_eq_getElem, List.getElem_zip]
    have hmapfst : (vp.zip seq).map Prod.fst = vp :=
      List.map_fst_zip vp seq (le_of_eq hlen)
    have := scatter_getD_nodup (vp.zip seq)
      (wildtype.map (fun t => oneHot TOKENS.length t)) j hjz
      (by rw [hmapfst]; exact hnd)
      (by rw [hpair, List.length_map]; exact hwt)
    rw [hpair] at this
    rw [setPositionsSequence, this,
      List.getD_eq_getElem _ _ (by rw [← hlen]; exact hj), List.get_eq_getElem]
    rfl

/-- Instantiation of `claim_C9`: wildtype [0, 1, 2] with position 1 variable. -/
theorem claim_C9_witness :
    (setPositionsSequence [0, 1, 2] [1] [[(5 : ℚ)]]).getD 0 [] =
      oneHot TOKENS.length 0 ∧
    (setPositionsSequence [0, 1, 2] [1] [[(5 : ℚ)]]).getD 1 [] = [(5 : ℚ)] :=
  ⟨(claim_C9 [0, 1, 2] [1] [[(5 : ℚ)]] rfl (by decide)).1 0 (by decide)
      (by decide),
    (claim_C9 [0, 1, 2] [1] [[(5 : ℚ)]] rfl (by decide)).2 0 (by decide)
      (by decide)⟩

lemma sqDist_self : ∀ s : List ℚ, sqDist s s = 0
  | [] => rfl
  | a :: s => by
    have ih := sqDist_self s
    rw [sqDist] at ih ⊢
    rw [List.zip_cons_cons, List.map_cons, List.sum_cons, ih, sub_self]
    ring

lemma sqDist_nonneg (s t : List ℚ) : 0 ≤ sqDist s t := by
  apply List.sum_nonneg
  intro x hx
  obtain ⟨p, _, hp⟩ := List.mem_map.mp hx
  rw [← hp]
  positivity

lemma penalty_sum_eq :
    ∀ (mask : List Bool) (seq target : List (List ℚ)),
      seq.length = mask.length → target.length = mask.length →
      ((((seq.zip target).map (fun p => sqDist p.1 p.2)).zip mask).map
        (fun s => if s.2 then s.1 else 0)).sum =
      ((List.range mask.length).map (fun i =>
        if mask.getD i false then
          sqDist (seq.getD i []) (target.getD i []) else 0)).sum
  | [], seq, target, _, _ => by simp
  | b :: mask, seq, target, h1, h2 => by
    cases seq with
    | nil => simp at h1
    | cons s seqt =>
      cases target with
      | nil => simp at h2
      | cons t targett =>
        have h1t : seqt.length = mask.length := by simpa using h1
        have h2t : targett.length = mask.length := by simpa using h2
        rw [List.zip_cons_cons, List.map_cons, List.zip_cons_cons,
          List.map_cons, List.sum_cons, List.length_cons,
          List.range_succ_eq_map, List.map_cons, List.map_map, List.sum_cons]
        have htail : (List.range mask.length).map ((fun i =>
            if (b :: mask).getD i false then
              sqDist ((s :: seqt).getD i []) ((t :: targett).getD i [])
            else 0) ∘ Nat.succ) =
            (List.range mask.length).map (fun i =>
              if mask.getD i false then
                sqDist (seqt.getD i []) (targett.getD i []) else 0) := by
          apply List.map_congr_left
          intro k _
          simp [Function.comp, Nat.succ_eq_add_one]
        rw [htail, penalty_sum_eq mask seqt targett h1t h2t]
        rfl

lemma sum_map_filter_eq (p : ℕ → Bool) (f : ℕ → ℚ) :
    ∀ l : List ℕ, ((l.filter p).map f).sum =
      (l.map (fun i => if p i then f i else 0)).sum
  | [] => rfl
  | a :: l => by
    rw [List.map_cons, List.sum_cons, ← sum_map_filter_eq p f l]
    cases hpa : p a
    · rw [List.filter_cons_of_neg (by simp [hpa])]
      simp [hpa]
    · rw [List.filter_cons_of_pos (by simp [hpa])]
      rw [List.map_cons, List.sum_cons]
      simp [hpa]

/-- Claim C10: `FixedPositionsPenalty.__call__` returns the sum, over exactly
the positions where `position_mask` is true, of the squared Euclidean
distance between sequence row and target row; the value is nonnegative, it
is zero when the sequence matches the target at every masked position, and
the `"fixed_position_penalty"` metrics entry equals the returned loss. -/
theorem claim_C10 (mask : List Bool) (target seq : List (List ℚ))
    (h1 : seq.length = mask.length) (h2 : target.length = mask.length) :
    (fixedPositionsPenalty mask target seq).1 =
      (((List.range mask.length).filter (fun i => mask.getD i false)).map
        (fun i => sqDist (seq.getD i []) (target.getD i []))).sum ∧
    0 ≤ (fixedPositionsPenalty mask target seq).1 ∧
    ((∀ i < mask.length, mask.getD i false = true →
        seq.getD i [] = target.getD i []) →
      (fixedPositionsPenalty mask target seq).1 = 0) ∧
    (fixedPositionsPenalty mask target seq).2 =
      [("fixed_position_penalty", (fixedPositionsPenalty mask target seq).1)] := by
  have hmain : (fixedPositionsPenalty mask target seq).1 =
      (((List.range mask.length).filter (fun i => mask.getD i false)).map
        (fun i => sqDist (seq.getD i []) (target.getD i []))).sum := by
    have hzip : (fixedPositionsPenalty mask target seq).1 =
        ((((seq.zip target).map (fun p => sqDist p.1 p.2)).zip mask).map
          (fun s => if s.2 then s.1 else 0)).sum := rfl
    rw [hzip, penalty_sum_eq mask seq target h1 h2,
      sum_map_filter_eq (fun i => mask.getD i false)
        (fun i => sqDist (seq.getD i []) (target.getD i [])) (List.range mask.length)]
  refine ⟨hmain, ?_, ?_, rfl⟩
  · rw [hmain]
    apply List.sum_nonneg
    intro x hx
    obtain ⟨i, _, hix⟩ := List.mem_map.mp hx
    rw [← hix]
    exact sqDist_nonneg _ _
  · intro hfix
    rw [hmain]
    apply List.sum_eq_zero
    intro x hx
    obtain ⟨i, hi, hix⟩ := List.mem_map.mp hx
    have hmem := List.mem_filter.mp hi
    have hirange : i < mask.length := List.mem_range.mp hmem.1
    have hrow := hfix i hirange (by simpa using hmem.2)
    rw [← hix, hrow, sqDist_self]

/-- Instantiation of `claim_C10` at a concrete matching input. -/
theorem claim_C10_witness :
    (fixedPositionsPenalty [true] [[(0 : ℚ)]] [[(0 : ℚ)]]).1 = 0 :=
  (claim_C10 [true] [[(0 : ℚ)]] [[(0 : ℚ)]] rfl rfl).2.2.1 (by decide)
